import Mathlib

/-!
Verification of the out-of-core pairwise SVM store engine (nsvm.c).

The development shallowly embeds the storage, training and classification
logic of the C source. Machine doubles are modelled as exact rationals;
the square-root calls of the source are modelled by the predicate
IsNormDivisorOf relating a rational to the natural sum of squares it is
the square root of, and by a propositional reading of the learning-rate
schedule over the reals. File I/O errors (open/read/write failures) are
outside the model; the arithmetic, branching and data-layout behaviour
of the source is embedded faithfully.
-/

namespace NSvm

/-- The regularization constant. From the source: #define LAMBDA 0.0001 . -/
def LAMBDA : ℚ := 1 / 10000

/-- Predicate stating that the rational nd models the double
sqrt(sq) computed by the source (getNormDivisor returns
sqrt((double)sumSquareByteValues)): nd is the nonnegative square root
of the natural number sq. -/
def IsNormDivisorOf (sq : ℕ) (nd : ℚ) : Prop :=
  0 ≤ nd ∧ nd * nd = (sq : ℚ)

/-- The propositional reading of the learning-rate computation in
createSvmFromDir: double learnRate = 1.0 / sqrt(stepNum + 1); with the
0-based step index stepNum. -/
def learnRateAt (stepNum : ℕ) (eta : ℝ) : Prop :=
  eta = 1 / Real.sqrt ((stepNum : ℝ) + 1)

/-- From getNormDivisor: starting at the pixel-data offset, the loop reads
width bytes per row, adds the square of each byte, and then seeks
rowPadding bytes forward, for numRows rows. data is the byte content of
the sample file from the pixel-data offset onward, so row r starts at
position r * (width + pad). Note that the source reads only width bytes
per row, with no bytes-per-pixel loop. -/
def sumSquareByteValues (width pad numRows : ℕ) (data : List ℕ) : ℕ :=
  ((List.range numRows).map
    (fun r => (((data.drop (r * (width + pad))).take width).map (fun b => b * b)).sum)).sum

/-- Modelled from the spec: the Euclidean-norm divisor is claimed to range
over all width times |height| times bytesPerPixel channel byte values of
the sample. Rows of the container are (width + pad) * bytesPerPixel bytes
long (the row size established by getBmpDims), and the channel bytes of
row r are its first width * bytesPerPixel bytes. The sum of squared
channel bytes under that reading: -/
def specSumSquareChannelBytes (width pad bytesPerPixel numRows : ℕ) (data : List ℕ) : ℕ :=
  ((List.range numRows).map
    (fun r =>
      (((data.drop (r * ((width + pad) * bytesPerPixel))).take (width * bytesPerPixel)).map
        (fun b => b * b)).sum)).sum

/-- The closed-form pair index of the spec: index(i, j) = i*n - i*(i+1)/2 + (j - i - 1). -/
def pairIndex (n i j : ℕ) : ℕ :=
  i * n - i * (i + 1) / 2 + (j - i - 1)

/-- The canonical enumeration order of class pairs, from the classification
loops in classifyFileFromSvm: posClass from 0 while < numClasses - 1,
negClass from posClass + 1 while < numClasses. (The outer bound is taken
as numClasses since the extra rows are empty.) -/
def classPairs (n : ℕ) : List (ℕ × ℕ) :=
  (List.range n).flatMap (fun i => (List.range' (i + 1) (n - (i + 1))).map (fun j => (i, j)))

/-- The incremental negative-vector offset computation of
trainVectorsWithSample for classNum = c nonzero: offsetVectors starts at
classNum - 1, and for iterNum from 1 while < classNum it is increased by
numClasses - 1 - iterNum, each visited value being a trained offset.
Returns the final accumulator value and the visited offsets in order. -/
def negFold (n c : ℕ) : ℕ × List ℕ :=
  (List.range' 1 (c - 1)).foldl
    (fun st iter => (st.1 + (n - 1 - iter), st.2 ++ [st.1 + (n - 1 - iter)]))
    (c - 1, [c - 1])

/-- The full offset trace of one trainVectorsWithSample call for class c:
the negative-vector offsets (role false), then after the jump by
numClasses - classNum the positive-vector offsets (role true), the latter
incrementing by one for numClasses - 1 - classNum vectors. For c = 0 the
negative section and the jump are skipped and offsetVectors stays 0. -/
def trainVectorOffsets (n c : ℕ) : List (ℕ × Bool) :=
  if c = 0 then (List.range' 0 (n - 1)).map (fun o => (o, true))
  else
    ((negFold n c).2.map (fun o => (o, false))) ++
      (List.range' ((negFold n c).1 + (n - c)) (n - 1 - c)).map (fun o => (o, true))

/-- The streamed dot product of trainVectorWithSample and
tryGetDotProduct: vector components and sample bytes are read in
lock-step and dotProduct accumulates component * byte / normDivisor. -/
def dotProductStream (nd : ℚ) (vec : List ℚ) (bytes : List ℕ) : ℚ :=
  ((vec.zip bytes).map (fun p => p.1 * (p.2 : ℚ) / nd)).sum

/-- One per-(sample, vector) update of trainVectorWithSample: the dot
product is computed, negated when the sample plays the negative role, and
if the result is < 1.0 every component v becomes
v - learnRate * (LAMBDA * v - (+-)byte/normDivisor) (redirect branch),
otherwise every component becomes v - learnRate * LAMBDA * v (shrink
branch). -/
def trainVectorWithSample (lr nd : ℚ) (isPositiveSample : Bool)
    (vec : List ℚ) (bytes : List ℕ) : List ℚ :=
  if (if isPositiveSample then dotProductStream nd vec bytes
      else -dotProductStream nd vec bytes) < 1 then
    (vec.zip bytes).map (fun p =>
      p.1 - lr * (LAMBDA * p.1 -
        (if isPositiveSample then (p.2 : ℚ) / nd else -((p.2 : ℚ) / nd))))
  else
    vec.map (fun v => v - lr * LAMBDA * v)

/-- Store-level effect of trainVectorsWithSample on the vector array for
one class c and one sample: if the normDivisor of the sample is negative the
call fails (in the source this only happens on an I/O error inside
getNormDivisor); if it is exactly zero the call succeeds leaving every
vector unchanged; otherwise every offset in the trace is trained with the
recorded role. vectors is the flat array of weight vectors indexed by
pair index. -/
def trainVectorsWithSample (n c : ℕ) (lr nd : ℚ)
    (vectors : List (List ℚ)) (bytes : List ℕ) : Option (List (List ℚ)) :=
  if nd ≤ 0 then (if nd < 0 then none else some vectors)
  else
    some ((trainVectorOffsets n c).foldl
      (fun vs e => vs.set e.1 (trainVectorWithSample lr nd e.2 (vs.getD e.1 []) bytes))
      vectors)

/-- tryGetDotProduct of classifyFileFromSvm: dotProduct is initialised to
0.0 and returned as-is when normDivisor is (+-)0.0; otherwise the vector
is streamed against the sample bytes exactly as in training. -/
def tryGetDotProduct (nd : ℚ) (vec : List ℚ) (bytes : List ℕ) : ℚ :=
  if nd = 0 then 0 else dotProductStream nd vec bytes

/-- One voting step of classifyFileFromSvm: if the dot product for the
pair (posClass, negClass) is > 0.0 then vectorsInFavor[posClass] is
incremented, otherwise vectorsInFavor[negClass]. Note posClass is the
smaller index of the pair. -/
def voteStep (nd : ℚ) (vectors : List (List ℚ)) (bytes : List ℕ) (n : ℕ)
    (votes : List ℕ) (pq : ℕ × ℕ) : List ℕ :=
  if tryGetDotProduct nd (vectors.getD (pairIndex n pq.1 pq.2) []) bytes > 0 then
    votes.set pq.1 (votes.getD pq.1 0 + 1)
  else
    votes.set pq.2 (votes.getD pq.2 0 + 1)

/-- The per-class vote tallies after the full classification pass: the
vectorsInFavor array, zero-initialised with numClasses entries, after the
double loop over all pairs. The vector streamed for the pair (i, j) is
the one at pair index index(i, j), which is where the sequential read
position stands when that pair is reached. -/
def vectorsInFavor (n : ℕ) (nd : ℚ) (vectors : List (List ℚ)) (bytes : List ℕ) : List ℕ :=
  (classPairs n).foldl (voteStep nd vectors bytes n) (List.replicate n 0)

/-- One step of the winner scan in classifyFileFromSvm: a strictly larger
tally resets the favourite list to the current class, an equal tally
appends it, a smaller one leaves the state unchanged. -/
def favStep (votes : List ℕ) (st : ℕ × List ℕ) (c : ℕ) : ℕ × List ℕ :=
  if votes.getD c 0 > st.1 then (votes.getD c 0, [c])
  else if votes.getD c 0 = st.1 then (st.1, st.2 ++ [c])
  else st

/-- The winner scan of classifyFileFromSvm: numVectorsFavor starts at
vectorsInFavor[0], favoriteClasses starts empty, and every class is
examined in index order. Returns (maximum tally, favourite classes). -/
def favoriteClasses (votes : List ℕ) : ℕ × List ℕ :=
  (List.range votes.length).foldl (favStep votes) (votes.getD 0 0, [])

/-- The reported confidence figure: totalVectorsFavor over
totalVectorsRelevant times 100, where totalVectorsFavor is
numClassesFavorite * numVectorsFavor and totalVectorsRelevant is
numClassesFavorite * (numClasses - 1). -/
def confidence (numClassesFavorite maxVotes n : ℕ) : ℚ :=
  ((numClassesFavorite * maxVotes : ℕ) : ℚ) / ((numClassesFavorite * (n - 1) : ℕ) : ℚ) * 100

/-- The observable result of classifyFileFromSvm on a store with n
classes whose vector array is vectors, classifying a sample with byte
stream bytes and norm divisor nd: the pass fails when the store declares
fewer than 2 classes or when getNormDivisor failed (negative nd);
otherwise it reports the tallies, the winner scan result and the
confidence figure. Header magic, double-size and shape validation, being
pure I/O format checks, are outside the model. -/
def classifyFileFromSvm (n : ℕ) (nd : ℚ) (vectors : List (List ℚ)) (bytes : List ℕ) :
    Option (List ℕ × (ℕ × List ℕ) × ℚ) :=
  if n < 2 then none
  else if nd < 0 then none
  else
    some (vectorsInFavor n nd vectors bytes,
      favoriteClasses (vectorsInFavor n nd vectors bytes),
      confidence (favoriteClasses (vectorsInFavor n nd vectors bytes)).2.length
        (favoriteClasses (vectorsInFavor n nd vectors bytes)).1 n)

end NSvm

/-! Basic arithmetic about the pair index. -/

namespace NSvm

theorem two_mul_tri (i : ℕ) : 2 * (i * (i + 1) / 2) = i * (i + 1) := by
  have h : 2 ∣ i * (i + 1) := (Nat.even_mul_succ_self i).two_dvd
  omega

theorem pairIndex_row (n i k : ℕ) :
    pairIndex n i (i + 1 + k) = (i * n - i * (i + 1) / 2) + k := by
  unfold pairIndex
  omega

theorem pairIndex_base (n i : ℕ) :
    pairIndex n i (i + 1) = i * n - i * (i + 1) / 2 := by
  have h := pairIndex_row n i 0
  simpa using h

theorem rowBase_succ (n i : ℕ) (h : i + 1 ≤ n) :
    (i + 1) * n - (i + 1) * (i + 1 + 1) / 2
      = (i * n - i * (i + 1) / 2) + (n - (i + 1)) := by
  have h1 := two_mul_tri i
  have h2 := two_mul_tri (i + 1)
  have h3 : (i + 1) * (i + 1 + 1) = i * (i + 1) + 2 * (i + 1) := by ring
  have h4 : (i + 1) * n = i * n + n := by ring
  have h5 : i * (i + 1) ≤ i * n := Nat.mul_le_mul_left i h
  omega

theorem tri_le (n i : ℕ) (h : i ≤ n) : i * (i + 1) / 2 ≤ i * n := by
  rcases Nat.eq_zero_or_pos n with hn | hn
  · have hi : i = 0 := by omega
    subst hi
    simp
  · have h1 := two_mul_tri i
    have h5 : i * (i + 1) ≤ i * n + i := by
      have hii : i * i ≤ i * n := Nat.mul_le_mul_left i (by omega)
      calc i * (i + 1) = i * i + i := by ring
      _ ≤ i * n + i := by omega
    have h6 : i ≤ i * n := Nat.le_mul_of_pos_right i hn
    omega

theorem pairIndex_zero_row (n j : ℕ) : pairIndex n 0 j = j - 1 := by
  simp [pairIndex]

theorem base_step (n i : ℕ) (h : i + 1 ≤ n) :
    pairIndex n (i + 1) (i + 1 + 1) = pairIndex n i (i + 1) + (n - (i + 1)) := by
  rw [pairIndex_base, pairIndex_base]
  exact rowBase_succ n i h

theorem base_mono (n : ℕ) : ∀ k i, i + k ≤ n →
    pairIndex n i (i + 1) ≤ pairIndex n (i + k) (i + k + 1) := by
  intro k
  induction k with
  | zero => intro i h; simp
  | succ m ih =>
      intro i h
      have h1 : pairIndex n i (i + 1) ≤ pairIndex n (i + 1) (i + 1 + 1) := by
        rw [base_step n i (by omega)]
        omega
      have h2 := ih (i + 1) (by omega)
      have e : i + 1 + m = i + (m + 1) := by omega
      rw [e] at h2
      exact le_trans h1 h2

theorem rowMap_eq_range' (n i m : ℕ) :
    (List.range' (i + 1) m).map (fun j => pairIndex n i j)
      = List.range' (pairIndex n i (i + 1)) m := by
  rw [List.range'_eq_map_range (i + 1) m, List.range'_eq_map_range (pairIndex n i (i + 1)) m]
  rw [List.map_map]
  apply List.map_congr_left
  intro k _
  show pairIndex n i (i + 1 + k) = pairIndex n i (i + 1) + k
  rw [pairIndex_row, pairIndex_base]

theorem pairRows_join (n : ℕ) : ∀ k i, i + k = n →
    ((List.range' i k).flatMap
        (fun a => (List.range' (a + 1) (n - (a + 1))).map (fun j => pairIndex n a j)))
      = List.range' (pairIndex n i (i + 1))
          (pairIndex n n (n + 1) - pairIndex n i (i + 1)) := by
  intro k
  induction k with
  | zero =>
      intro i h
      have e : i = n := by omega
      subst e
      simp
  | succ m ih =>
      intro i h
      have hsucc : List.range' i (m + 1) = i :: List.range' (i + 1) m := by
        rw [List.range'_succ]
      rw [hsucc, List.flatMap_cons, rowMap_eq_range', ih (i + 1) (by omega)]
      have hstep : pairIndex n (i + 1) (i + 1 + 1) = pairIndex n i (i + 1) + (n - (i + 1)) :=
        base_step n i (by omega)
      have hmono : pairIndex n (i + 1) (i + 1 + 1) ≤ pairIndex n n (n + 1) := by
        have h2 := base_mono n (n - (i + 1)) (i + 1) (by omega)
        have e : i + 1 + (n - (i + 1)) = n := by omega
        rw [e] at h2
        exact h2
      have happ := List.range'_append (pairIndex n i (i + 1)) (n - (i + 1))
        (pairIndex n n (n + 1) - pairIndex n (i + 1) (i + 1 + 1)) 1
      rw [one_mul] at happ
      rw [hstep] at hmono happ
      rw [hstep, happ]
      congr 1
      omega

theorem pairIndex_total (n : ℕ) : pairIndex n n (n + 1) = n * (n - 1) / 2 := by
  rcases n with _ | m
  · simp [pairIndex]
  · show (m + 1) * (m + 1) - (m + 1) * (m + 1 + 1) / 2 + (m + 1 + 1 - (m + 1) - 1)
        = (m + 1) * (m + 1 - 1) / 2
    have e1 : m + 1 + 1 - (m + 1) - 1 = 0 := by omega
    have e2 : m + 1 - 1 = m := by omega
    rw [e1, e2]
    have hc : (m + 1) * m = m * (m + 1) := by ring
    rw [hc]
    have h1 := two_mul_tri (m + 1)
    have h2 : 2 ∣ m * (m + 1) := (Nat.even_mul_succ_self m).two_dvd
    have h3 : (m + 1) * (m + 1 + 1) = m * (m + 1) + 2 * (m + 1) := by ring
    have h4 : (m + 1) * (m + 1) = m * (m + 1) + (m + 1) := by ring
    omega


theorem classPairs_map_pairIndex (n : ℕ) :
    (classPairs n).map (fun pq => pairIndex n pq.1 pq.2) = List.range (n * (n - 1) / 2) := by
  unfold classPairs
  rw [List.map_flatMap]
  have hinner : ∀ a : ℕ,
      ((List.range' (a + 1) (n - (a + 1))).map (fun j => (a, j))).map
          (fun pq : ℕ × ℕ => pairIndex n pq.1 pq.2)
        = (List.range' (a + 1) (n - (a + 1))).map (fun j => pairIndex n a j) := by
    intro a
    rw [List.map_map]
    rfl
  calc ((List.range n).flatMap fun a =>
          ((List.range' (a + 1) (n - (a + 1))).map (fun j => (a, j))).map
            (fun pq : ℕ × ℕ => pairIndex n pq.1 pq.2))
      = (List.range n).flatMap
          (fun a => (List.range' (a + 1) (n - (a + 1))).map (fun j => pairIndex n a j)) := by
        apply List.flatMap_congr
        intro a _
        exact hinner a
    _ = List.range (n * (n - 1) / 2) := by
        rw [List.range_eq_range' n]
        have h := pairRows_join n n 0 (by omega)
        rw [h]
        have h0 : pairIndex n 0 (0 + 1) = 0 := by simp [pairIndex]
        rw [h0, pairIndex_total]
        rw [List.range_eq_range' (n * (n - 1) / 2)]
        simp

theorem mem_classPairs (n i j : ℕ) : (i, j) ∈ classPairs n ↔ i < j ∧ j < n := by
  unfold classPairs
  rw [List.mem_flatMap]
  constructor
  · rintro ⟨a, ha, hmem⟩
    rw [List.mem_map] at hmem
    obtain ⟨j2, hj2, heq⟩ := hmem
    rw [List.mem_range'_1] at hj2
    rw [List.mem_range] at ha
    injection heq with e1 e2
    subst e1
    subst e2
    omega
  · rintro ⟨hij, hjn⟩
    refine ⟨i, List.mem_range.mpr (by omega), ?_⟩
    rw [List.mem_map]
    exact ⟨j, List.mem_range'_1.mpr (by omega), rfl⟩

theorem classPairs_nodup_map (n : ℕ) :
    ((classPairs n).map (fun pq => pairIndex n pq.1 pq.2)).Nodup := by
  rw [classPairs_map_pairIndex]
  exact List.nodup_range _

theorem pairIndex_injective (n i j i2 j2 : ℕ) (h1 : i < j) (h2 : j < n)
    (h3 : i2 < j2) (h4 : j2 < n) (heq : pairIndex n i j = pairIndex n i2 j2) :
    i = i2 ∧ j = j2 := by
  have hmem1 : (i, j) ∈ classPairs n := (mem_classPairs n i j).mpr ⟨h1, h2⟩
  have hmem2 : (i2, j2) ∈ classPairs n := (mem_classPairs n i2 j2).mpr ⟨h3, h4⟩
  have h5 : (i, j) = (i2, j2) :=
    List.inj_on_of_nodup_map (classPairs_nodup_map n) hmem1 hmem2 heq
  exact ⟨congrArg Prod.fst h5, congrArg Prod.snd h5⟩

theorem classPairs_length (n : ℕ) : (classPairs n).length = n * (n - 1) / 2 := by
  have h := congrArg List.length (classPairs_map_pairIndex n)
  rw [List.length_map, List.length_range] at h
  exact h

theorem pairIndex_lt_total (n i j : ℕ) (h1 : i < j) (h2 : j < n) :
    pairIndex n i j < n * (n - 1) / 2 := by
  have hmem : (i, j) ∈ classPairs n := (mem_classPairs n i j).mpr ⟨h1, h2⟩
  have : pairIndex n i j ∈ (classPairs n).map (fun pq => pairIndex n pq.1 pq.2) :=
    List.mem_map.mpr ⟨(i, j), hmem, rfl⟩
  rw [classPairs_map_pairIndex] at this
  exact List.mem_range.mp this


theorem pairIndex_col_succ (n c k : ℕ) (h1 : k + 1 < c) (h2 : c ≤ n) :
    pairIndex n (k + 1) c = pairIndex n k c + (n - 1 - (k + 1)) := by
  unfold pairIndex
  have ht1 := two_mul_tri k
  have ht2 := two_mul_tri (k + 1)
  have h3 : (k + 1) * (k + 1 + 1) = k * (k + 1) + 2 * (k + 1) := by ring
  have h4 : (k + 1) * n = k * n + n := by ring
  have h5 : k * (k + 1) ≤ k * n := Nat.mul_le_mul_left k (by omega)
  omega

theorem negFold_aux (n c : ℕ) (hc : 1 ≤ c) (hcn : c ≤ n) :
    ∀ m, m ≤ c - 1 →
      (List.range' 1 m).foldl
        (fun st iter => (st.1 + (n - 1 - iter), st.2 ++ [st.1 + (n - 1 - iter)]))
        (c - 1, [c - 1])
      = (pairIndex n m c, (List.range (m + 1)).map (fun k => pairIndex n k c)) := by
  intro m
  induction m with
  | zero =>
      intro _
      simp [pairIndex_zero_row, List.range_succ, List.range_zero]
  | succ m ih =>
      intro hm
      have hstepv : pairIndex n m c + (n - 1 - (m + 1)) = pairIndex n (m + 1) c :=
        (pairIndex_col_succ n c m (by omega) hcn).symm
      rw [List.range'_concat 1 m]
      rw [show (1 + 1 * m) = m + 1 from by omega]
      rw [List.foldl_append, ih (by omega)]
      show (pairIndex n m c + (n - 1 - (m + 1)),
          ((List.range (m + 1)).map (fun k => pairIndex n k c))
            ++ [pairIndex n m c + (n - 1 - (m + 1))])
        = (pairIndex n (m + 1) c, (List.range (m + 1 + 1)).map (fun k => pairIndex n k c))
      rw [hstepv, List.range_succ (m + 1), List.map_append]
      rfl

theorem negFold_eq (n c : ℕ) (hc : 1 ≤ c) (hcn : c ≤ n) :
    negFold n c = (pairIndex n (c - 1) c, (List.range c).map (fun k => pairIndex n k c)) := by
  unfold negFold
  have h := negFold_aux n c hc hcn (c - 1) (by omega)
  rw [h]
  rw [show (c - 1 + 1) = c from by omega]

theorem trainVectorOffsets_eq (n c : ℕ) (h : c < n) :
    trainVectorOffsets n c =
      ((List.range c).map (fun k => (pairIndex n k c, false))) ++
        ((List.range' (c + 1) (n - 1 - c)).map (fun j => (pairIndex n c j, true))) := by
  rcases Nat.eq_zero_or_pos c with hc | hc
  · subst hc
    unfold trainVectorOffsets
    rw [if_pos rfl]
    rw [List.range'_eq_map_range 0 (n - 1), List.range'_eq_map_range 1 (n - 1 - 0)]
    rw [List.map_map, List.map_map]
    simp only [List.range_zero, List.map_nil, List.nil_append]
    rw [show (n - 1 - 0) = n - 1 from by omega]
    apply List.map_congr_left
    intro k _
    show (0 + k, true) = (pairIndex n 0 (1 + k), true)
    rw [pairIndex_zero_row]
    congr 1
    omega
  · unfold trainVectorOffsets
    rw [if_neg (by omega)]
    rw [negFold_eq n c (by omega) (by omega)]
    have e : c - 1 + 1 = c := by omega
    have hb := base_step n (c - 1) (by omega)
    rw [e] at hb
    congr 1
    · rw [List.map_map]
      rfl
    · rw [← hb, ← rowMap_eq_range' n c (n - 1 - c), List.map_map]
      rfl


theorem getD_set_ne {α : Type} (l : List α) (i k : ℕ) (v d : α) (h : i ≠ k) :
    (l.set i v).getD k d = l.getD k d := by
  simp [List.getD, List.getElem?_set_ne h]

theorem getD_set_self {α : Type} (l : List α) (i : ℕ) (v d : α) (h : i < l.length) :
    (l.set i v).getD i d = v := by
  simp [List.getD, List.getElem?_set_self, h]

theorem getD_replicate_zero (n k : ℕ) : (List.replicate n (0 : ℕ)).getD k 0 = 0 := by
  rcases Nat.lt_or_ge k n with h | h
  · simp [List.getD, List.getElem?_replicate, h]
  · have h2 : (List.replicate n (0 : ℕ)).length ≤ k := by simpa using h
    simp [List.getD, List.getElem?_eq_none h2]

theorem getD_range (n m : ℕ) (h : m < n) : (List.range n).getD m 0 = m := by
  simp [List.getD, List.getElem?_range h]

theorem incrFold_length {β : Type} (l : List β) (choice : β → ℕ) (init : List ℕ) :
    (l.foldl (fun v b => v.set (choice b) (v.getD (choice b) 0 + 1)) init).length
      = init.length := by
  induction l generalizing init with
  | nil => rfl
  | cons b t ih => rw [List.foldl_cons, ih, List.length_set]

theorem incrFold_getD {β : Type} [DecidableEq β] (l : List β) (choice : β → ℕ)
    (init : List ℕ) (k : ℕ) (hk : k < init.length)
    (hb : ∀ b ∈ l, choice b < init.length) :
    (l.foldl (fun v b => v.set (choice b) (v.getD (choice b) 0 + 1)) init).getD k 0
      = init.getD k 0 + (l.filter (fun b => choice b = k)).length := by
  induction l generalizing init with
  | nil => simp
  | cons b t ih =>
      rw [List.foldl_cons]
      have hlen : (init.set (choice b) (init.getD (choice b) 0 + 1)).length = init.length :=
        List.length_set ..
      have ht : ∀ x ∈ t,
          choice x < (init.set (choice b) (init.getD (choice b) 0 + 1)).length := by
        rw [hlen]
        intro x hx
        exact hb x (List.mem_cons_of_mem _ hx)
      rw [ih _ (by rw [hlen]; exact hk) ht]
      by_cases hc : choice b = k
      · rw [hc]
        rw [getD_set_self init k _ 0 hk]
        have hf : (b :: t).filter (fun x => choice x = k)
            = b :: t.filter (fun x => choice x = k) := by
          simp [List.filter_cons, hc]
        rw [hf, List.length_cons]
        omega
      · rw [getD_set_ne init (choice b) k _ 0 hc]
        have hf : (b :: t).filter (fun x => choice x = k)
            = t.filter (fun x => choice x = k) := by
          simp [List.filter_cons, hc]
        rw [hf]

theorem sum_set_succ (v : List ℕ) (i : ℕ) (h : i < v.length) :
    (v.set i (v.getD i 0 + 1)).sum = v.sum + 1 := by
  induction v generalizing i with
  | nil => simp at h
  | cons a t ih =>
      cases i with
      | zero => simp [List.getD_cons_zero, List.sum_cons]; omega
      | succ m =>
          have hm : m < t.length := by simpa using h
          rw [List.getD_cons_succ]
          show (a :: t.set m (t.getD m 0 + 1)).sum = (a :: t).sum + 1
          rw [List.sum_cons, List.sum_cons, ih m hm]
          omega

theorem incrFold_sum {β : Type} (l : List β) (choice : β → ℕ) (init : List ℕ)
    (hb : ∀ b ∈ l, choice b < init.length) :
    (l.foldl (fun v b => v.set (choice b) (v.getD (choice b) 0 + 1)) init).sum
      = init.sum + l.length := by
  induction l generalizing init with
  | nil => simp
  | cons b t ih =>
      rw [List.foldl_cons]
      have hlen : (init.set (choice b) (init.getD (choice b) 0 + 1)).length = init.length :=
        List.length_set ..
      have ht : ∀ x ∈ t,
          choice x < (init.set (choice b) (init.getD (choice b) 0 + 1)).length := by
        rw [hlen]
        intro x hx
        exact hb x (List.mem_cons_of_mem _ hx)
      rw [ih _ ht, sum_set_succ init (choice b) (hb b (List.mem_cons_self b t)), List.length_cons]
      omega


/-- Helper reformulation of voteStep: the class whose tally one pair
evaluation increments is the lower index posClass on a positive dot
product and the higher index negClass otherwise. -/
def chosenClass (nd : ℚ) (vectors : List (List ℚ)) (bytes : List ℕ) (n : ℕ)
    (pq : ℕ × ℕ) : ℕ :=
  if tryGetDotProduct nd (vectors.getD (pairIndex n pq.1 pq.2) []) bytes > 0 then pq.1
  else pq.2

theorem voteStep_eq (nd : ℚ) (vectors : List (List ℚ)) (bytes : List ℕ) (n : ℕ)
    (votes : List ℕ) (pq : ℕ × ℕ) :
    voteStep nd vectors bytes n votes pq
      = votes.set (chosenClass nd vectors bytes n pq)
          (votes.getD (chosenClass nd vectors bytes n pq) 0 + 1) := by
  unfold voteStep chosenClass
  by_cases h : tryGetDotProduct nd (vectors.getD (pairIndex n pq.1 pq.2) []) bytes > 0
  · rw [if_pos h, if_pos h]
  · rw [if_neg h, if_neg h]

theorem vectorsInFavor_eq_incr (n : ℕ) (nd : ℚ) (vectors : List (List ℚ))
    (bytes : List ℕ) :
    vectorsInFavor n nd vectors bytes
      = (classPairs n).foldl
          (fun v pq => v.set (chosenClass nd vectors bytes n pq)
            (v.getD (chosenClass nd vectors bytes n pq) 0 + 1))
          (List.replicate n 0) := by
  unfold vectorsInFavor
  congr 1
  funext votes pq
  exact voteStep_eq nd vectors bytes n votes pq

theorem chosenClass_lt (nd : ℚ) (vectors : List (List ℚ)) (bytes : List ℕ) (n : ℕ)
    (pq : ℕ × ℕ) (h : pq ∈ classPairs n) : chosenClass nd vectors bytes n pq < n := by
  have h2 : (pq.1, pq.2) ∈ classPairs n := by
    rw [Prod.mk.eta]
    exact h
  have h3 := (mem_classPairs n pq.1 pq.2).mp h2
  unfold chosenClass
  split <;> omega

theorem vectorsInFavor_length (n : ℕ) (nd : ℚ) (vectors : List (List ℚ))
    (bytes : List ℕ) : (vectorsInFavor n nd vectors bytes).length = n := by
  rw [vectorsInFavor_eq_incr, incrFold_length, List.length_replicate]

theorem vectorsInFavor_getD (n : ℕ) (nd : ℚ) (vectors : List (List ℚ))
    (bytes : List ℕ) (k : ℕ) (hk : k < n) :
    (vectorsInFavor n nd vectors bytes).getD k 0
      = ((classPairs n).filter
          (fun pq => chosenClass nd vectors bytes n pq = k)).length := by
  rw [vectorsInFavor_eq_incr]
  rw [incrFold_getD (classPairs n) (chosenClass nd vectors bytes n) (List.replicate n 0) k
    (by simpa using hk)
    (fun b hb => by simpa using chosenClass_lt nd vectors bytes n b hb)]
  rw [getD_replicate_zero]
  omega

theorem vectorsInFavor_sum (n : ℕ) (nd : ℚ) (vectors : List (List ℚ))
    (bytes : List ℕ) :
    (vectorsInFavor n nd vectors bytes).sum = (classPairs n).length := by
  rw [vectorsInFavor_eq_incr]
  rw [incrFold_sum (classPairs n) (chosenClass nd vectors bytes n) (List.replicate n 0)
    (fun b hb => by simpa using chosenClass_lt nd vectors bytes n b hb)]
  simp

theorem favFold_ne_nil (votes : List ℕ) (l : List ℕ) :
    ∀ st : ℕ × List ℕ, st.2 ≠ [] → (l.foldl (favStep votes) st).2 ≠ [] := by
  induction l with
  | nil => intro st h; exact h
  | cons c t ih =>
      intro st h
      rw [List.foldl_cons]
      apply ih
      unfold favStep
      split
      · simp
      · split
        · simp
        · exact h

theorem favoriteClasses_ne_nil (votes : List ℕ) (h : 1 ≤ votes.length) :
    (favoriteClasses votes).2 ≠ [] := by
  unfold favoriteClasses
  obtain ⟨m, hm⟩ : ∃ m, votes.length = m + 1 := ⟨votes.length - 1, by omega⟩
  rw [hm, List.range_succ_eq_map, List.foldl_cons]
  apply favFold_ne_nil
  unfold favStep
  split
  · simp
  · split
    · simp
    · simp at *


theorem filter_flatMap_eq {α β : Type} (l : List α) (f : α → List β) (p : β → Bool) :
    (l.flatMap f).filter p = l.flatMap (fun a => (f a).filter p) := by
  induction l with
  | nil => rfl
  | cons a t ih => rw [List.flatMap_cons, List.flatMap_cons, List.filter_append, ih]

theorem flatMap_singleton_eq {α β : Type} (l : List α) (g : α → β) :
    l.flatMap (fun a => [g a]) = l.map g := by
  induction l with
  | nil => rfl
  | cons a t ih => rw [List.flatMap_cons, List.map_cons, ih]; rfl

theorem flatMap_nil_eq {α β : Type} (l : List α) :
    l.flatMap (fun _ => ([] : List β)) = [] := by
  induction l with
  | nil => rfl
  | cons a t ih => rw [List.flatMap_cons, ih]; rfl

theorem range'_filter_eq (k : ℕ) : ∀ m s, (List.range' s m).filter (fun j => j = k)
    = if s ≤ k ∧ k < s + m then [k] else [] := by
  intro m
  induction m with
  | zero =>
      intro s
      rw [if_neg (by omega)]
      rfl
  | succ m ih =>
      intro s
      rw [List.range'_succ s m 1]
      by_cases h : s = k
      · subst h
        rw [List.filter_cons]
        simp only [decide_eq_true_eq, if_pos rfl]
        have c1 : ¬(s + 1 ≤ s ∧ s < s + 1 + m) := by omega
        have c2 : s ≤ s ∧ s < s + (m + 1) := by omega
        rw [ih (s + 1), if_neg c1, if_pos c2]
        simp
      · rw [List.filter_cons]
        simp only [decide_eq_true_eq, if_neg h]
        rw [ih (s + 1)]
        by_cases h2 : s ≤ k ∧ k < s + (m + 1)
        · rw [if_pos (by omega), if_pos h2]
        · rw [if_neg (by omega), if_neg h2]

theorem length_filter_mono {α : Type} (l : List α) (p q : α → Bool)
    (h : ∀ a, p a = true → q a = true) :
    (l.filter p).length ≤ (l.filter q).length := by
  induction l with
  | nil => simp
  | cons a t ih =>
      rw [List.filter_cons, List.filter_cons]
      by_cases hp : p a = true
      · rw [if_pos hp, if_pos (h a hp)]
        simpa using ih
      · rw [if_neg hp]
        split
        · exact le_trans ih (by simp)
        · exact ih

theorem range_split (n k : ℕ) (h : k ≤ n) :
    List.range n = List.range k ++ List.range' k (n - k) := by
  have happ := List.range'_append 0 k (n - k) 1
  rw [one_mul, Nat.zero_add] at happ
  rw [List.range_eq_range' n, List.range_eq_range' k, happ]
  congr 1
  omega

theorem classPairs_filter_contains (n k : ℕ) (hk : k < n) :
    (classPairs n).filter (fun pq => pq.1 = k ∨ pq.2 = k)
      = ((List.range k).map (fun i => (i, k)))
          ++ ((List.range' (k + 1) (n - (k + 1))).map (fun j => (k, j))) := by
  unfold classPairs
  rw [filter_flatMap_eq]
  have hrow : ∀ i : ℕ,
      ((List.range' (i + 1) (n - (i + 1))).map (fun j => (i, j))).filter
          (fun pq => pq.1 = k ∨ pq.2 = k)
        = ((List.range' (i + 1) (n - (i + 1))).filter
            (fun j => i = k ∨ j = k)).map (fun j => (i, j)) := by
    intro i
    rw [List.filter_map]
    exact congrArg (List.map (fun j => (i, j)))
      (List.filter_congr (fun a _ => rfl))
  have hsplit := range_split n (k + 1) (by omega)
  rw [hsplit, List.flatMap_append]
  have hk1 : List.range (k + 1) = List.range k ++ [k] := List.range_succ k
  rw [hk1, List.flatMap_append]
  have hlow : (List.range k).flatMap
      (fun i => ((List.range' (i + 1) (n - (i + 1))).map (fun j => (i, j))).filter
        (fun pq => pq.1 = k ∨ pq.2 = k))
      = (List.range k).map (fun i => (i, k)) := by
    rw [← flatMap_singleton_eq (List.range k) (fun i => (i, k))]
    apply List.flatMap_congr
    intro i hi
    rw [List.mem_range] at hi
    rw [hrow i]
    have hfilt : (List.range' (i + 1) (n - (i + 1))).filter (fun j => i = k ∨ j = k)
        = (List.range' (i + 1) (n - (i + 1))).filter (fun j => j = k) := by
      apply List.filter_congr
      intro j _
      apply decide_eq_decide.mpr
      constructor
      · intro hj
        rcases hj with hj | hj
        · omega
        · exact hj
      · intro hj
        exact Or.inr hj
    rw [hfilt, range'_filter_eq k (n - (i + 1)) (i + 1), if_pos (by omega)]
    rfl
  have hmid : [k].flatMap
      (fun i => ((List.range' (i + 1) (n - (i + 1))).map (fun j => (i, j))).filter
        (fun pq => pq.1 = k ∨ pq.2 = k))
      = (List.range' (k + 1) (n - (k + 1))).map (fun j => (k, j)) := by
    rw [List.flatMap_cons]
    rw [hrow k]
    have hfilt : (List.range' (k + 1) (n - (k + 1))).filter (fun j => k = k ∨ j = k)
        = List.range' (k + 1) (n - (k + 1)) := by
      apply List.filter_eq_self.mpr
      intro j _
      simp
    rw [hfilt]
    simp
  have hhigh : (List.range' (k + 1) (n - (k + 1))).flatMap
      (fun i => ((List.range' (i + 1) (n - (i + 1))).map (fun j => (i, j))).filter
        (fun pq => pq.1 = k ∨ pq.2 = k))
      = [] := by
    rw [← flatMap_nil_eq (List.range' (k + 1) (n - (k + 1)))]
    apply List.flatMap_congr
    intro i hi
    rw [List.mem_range'_1] at hi
    rw [hrow i]
    have hfilt : (List.range' (i + 1) (n - (i + 1))).filter (fun j => i = k ∨ j = k)
        = (List.range' (i + 1) (n - (i + 1))).filter (fun j => j = k) := by
      apply List.filter_congr
      intro j _
      apply decide_eq_decide.mpr
      constructor
      · intro hj
        rcases hj with hj | hj
        · omega
        · exact hj
      · intro hj
        exact Or.inr hj
    rw [hfilt, range'_filter_eq k (n - (i + 1)) (i + 1), if_neg (by omega)]
    rfl
  rw [hlow, hmid, hhigh, List.append_nil]


theorem classPairs_filter_snd (n k : ℕ) (hk : k < n) :
    (classPairs n).filter (fun pq => pq.2 = k) = (List.range k).map (fun i => (i, k)) := by
  unfold classPairs
  rw [filter_flatMap_eq]
  have hrow : ∀ i : ℕ,
      ((List.range' (i + 1) (n - (i + 1))).map (fun j => (i, j))).filter
          (fun pq => pq.2 = k)
        = ((List.range' (i + 1) (n - (i + 1))).filter (fun j => j = k)).map
            (fun j => (i, j)) := by
    intro i
    rw [List.filter_map]
    exact congrArg (List.map (fun j => (i, j))) (List.filter_congr (fun a _ => rfl))
  rw [range_split n k (by omega), List.flatMap_append]
  have hlow : (List.range k).flatMap
      (fun i => ((List.range' (i + 1) (n - (i + 1))).map (fun j => (i, j))).filter
        (fun pq => pq.2 = k))
      = (List.range k).map (fun i => (i, k)) := by
    rw [← flatMap_singleton_eq (List.range k) (fun i => (i, k))]
    apply List.flatMap_congr
    intro i hi
    rw [List.mem_range] at hi
    rw [hrow i, range'_filter_eq k (n - (i + 1)) (i + 1), if_pos (by omega)]
    rfl
  have hhigh : (List.range' k (n - k)).flatMap
      (fun i => ((List.range' (i + 1) (n - (i + 1))).map (fun j => (i, j))).filter
        (fun pq => pq.2 = k))
      = [] := by
    rw [← flatMap_nil_eq (List.range' k (n - k))]
    apply List.flatMap_congr
    intro i hi
    rw [List.mem_range'_1] at hi
    rw [hrow i, range'_filter_eq k (n - (i + 1)) (i + 1), if_neg (by omega)]
    rfl
  rw [hlow, hhigh, List.append_nil]

theorem chosenClass_zero (vectors : List (List ℚ)) (bytes : List ℕ) (n : ℕ)
    (pq : ℕ × ℕ) : chosenClass 0 vectors bytes n pq = pq.2 := by
  unfold chosenClass tryGetDotProduct
  rw [if_pos rfl]
  rw [if_neg (lt_irrefl 0)]

theorem vectorsInFavor_zero_getD (n : ℕ) (vectors : List (List ℚ)) (bytes : List ℕ)
    (k : ℕ) (hk : k < n) :
    (vectorsInFavor n 0 vectors bytes).getD k 0 = k := by
  rw [vectorsInFavor_getD n 0 vectors bytes k hk]
  have hc : (classPairs n).filter (fun pq => chosenClass 0 vectors bytes n pq = k)
      = (classPairs n).filter (fun pq => pq.2 = k) := by
    apply List.filter_congr
    intro pq _
    apply decide_eq_decide.mpr
    rw [chosenClass_zero]
  rw [hc, classPairs_filter_snd n k hk, List.length_map, List.length_range]

theorem vectorsInFavor_zero (n : ℕ) (vectors : List (List ℚ)) (bytes : List ℕ) :
    vectorsInFavor n 0 vectors bytes = List.range n := by
  apply List.ext_getElem
  · rw [vectorsInFavor_length, List.length_range]
  · intro i h1 h2
    have hi : i < n := by simpa using h2
    have hg := vectorsInFavor_zero_getD n vectors bytes i hi
    rw [List.getD_eq_getElem _ 0 h1] at hg
    rw [hg, List.getElem_range i]

theorem favFold_inc (votes : List ℕ) (n : ℕ) (hv : ∀ c, c < n → votes.getD c 0 = c) :
    ∀ m s, 1 ≤ s → s + m ≤ n →
      (List.range' s m).foldl (favStep votes) (s - 1, [s - 1]) = (s - 1 + m, [s - 1 + m]) := by
  intro m
  induction m with
  | zero =>
      intro s h1 h2
      simp
  | succ m ih =>
      intro s h1 h2
      rw [List.range'_succ s m 1, List.foldl_cons]
      have hstep : favStep votes (s - 1, [s - 1]) s = (s, [s]) := by
        unfold favStep
        rw [hv s (by omega)]
        rw [if_pos (by omega : s > s - 1)]
      rw [hstep]
      have ih2 := ih (s + 1) (by omega) (by omega)
      rw [Nat.add_sub_cancel] at ih2
      rw [ih2]
      have e : s - 1 + (m + 1) = s + m := by omega
      rw [e]

theorem favoriteClasses_range (n : ℕ) (h : 2 ≤ n) :
    favoriteClasses (List.range n) = (n - 1, [n - 1]) := by
  unfold favoriteClasses
  rw [List.length_range]
  have h0 : (List.range n).getD 0 0 = 0 := getD_range n 0 (by omega)
  rw [h0]
  have hsplit : List.range n = 0 :: List.range' 1 (n - 1) := by
    conv_lhs => rw [List.range_eq_range' n, show n = n - 1 + 1 from by omega]
    rw [List.range'_succ 0 (n - 1) 1]
  rw [hsplit, List.foldl_cons]
  have hv : ∀ c, c < n → (0 :: List.range' 1 (n - 1)).getD c 0 = c := by
    intro c hc
    rw [← hsplit]
    exact getD_range n c hc
  have hstep : favStep (0 :: List.range' 1 (n - 1)) ((0 : ℕ), ([] : List ℕ)) 0 = (0, [0]) := by
    unfold favStep
    rw [hv 0 (by omega)]
    rw [if_neg (lt_irrefl 0), if_pos rfl]
    rfl
  rw [hstep]
  have hf := favFold_inc (0 :: List.range' 1 (n - 1)) n hv (n - 1) 1 (le_refl 1) (by omega)
  norm_num at hf
  rw [hf]


/-- The image shape a class directory declares: width, signed height and
bits per pixel as read by getBmpDims / allFilesSameDims. -/
structure BmpShape where
  width : ℕ
  height : ℤ
  bitsPerPixel : ℕ
deriving DecidableEq

/-- The store file produced by initializeOutputFile: the fixed header
(magic token, byte width of the floating type, image shape), the class
table and the flat array of vector components. -/
structure StoreFile where
  magic : String
  doubleSize : ℕ
  width : ℕ
  height : ℤ
  bitsPerPixel : ℕ
  classNames : List String
  vectorData : List ℚ
deriving DecidableEq

/-- The acceptance test initializeOutputFile applies to a class directory
once dimensions are established: the directory is kept unless
dirWidth != width, dirHeight != height, dirBitsPerPixel != bitsPerPixel
or dirBitsPerPixel & 7 is nonzero; a rejected directory is skipped with
continue, not reported as an error. -/
def keepsClass (est sh : BmpShape) : Bool :=
  sh.width == est.width && sh.height == est.height &&
    sh.bitsPerPixel == est.bitsPerPixel && sh.bitsPerPixel % 8 == 0

/-- One step of the directory scan in initializeOutputFile. The state is
the established dimensions (none until the first readable class
directory) and the class names written so far. An entry whose shape is
none models a directory allFilesSameDims could not validate; it is
skipped. The first validated directory establishes the dimensions and is
always kept. -/
def initFold (st : Option BmpShape × List String) (dir : String × Option BmpShape) :
    Option BmpShape × List String :=
  match st, dir with
  | st2, (_, none) => st2
  | (none, names), (nm, some sh) => (some sh, names ++ [nm])
  | (some est, names), (nm, some sh) =>
      if keepsClass est sh then (some est, names ++ [nm]) else (some est, names)

/-- numPixels = width * |height| as computed when writing the initial
vectors. -/
def numPixels (sh : BmpShape) : ℕ := sh.width * sh.height.natAbs

/-- Number of components of one stored vector:
numPixels * bytesPerPixel where bytesPerPixel = bitsPerPixel >> 3. -/
def vectorLen (sh : BmpShape) : ℕ := numPixels sh * (sh.bitsPerPixel / 8)

/-- The initial vector region as written by the nested loops of
initializeOutputFile: for i from 1 while < numClasses, for j from i while
< numClasses, write numPixels * bytesPerPixel zero doubles. -/
def initialVectors (n len : ℕ) : List ℚ :=
  (List.range' 1 (n - 1)).flatMap
    (fun i => (List.range' i (n - i)).flatMap (fun _ => List.replicate len (0 : ℚ)))

/-- initializeOutputFile: scan the first-level directories, skipping
invalid or mismatched ones; fail if fewer than 2 classes were kept;
otherwise emit the header, the kept class names in scan order and the
zero-filled vector region. -/
def initializeOutputFile (dirs : List (String × Option BmpShape)) : Option StoreFile :=
  match dirs.foldl initFold (none, []) with
  | (est, names) =>
      if names.length < 2 then none
      else
        match est with
        | none => none
        | some sh =>
            some ⟨"NSVM", 8, sh.width, sh.height, sh.bitsPerPixel, names,
              initialVectors names.length (vectorLen sh)⟩

theorem flatMap_replicate_sum {α : Type} (l : List α) (g : α → ℕ) (c : ℚ) :
    l.flatMap (fun a => List.replicate (g a) c) = List.replicate ((l.map g).sum) c := by
  induction l with
  | nil => rfl
  | cons a t ih =>
      rw [List.flatMap_cons, ih, List.map_cons, List.sum_cons, List.replicate_add]

theorem flatMap_const_replicate {α : Type} (l : List α) (len : ℕ) (c : ℚ) :
    l.flatMap (fun _ => List.replicate len c) = List.replicate (l.length * len) c := by
  rw [flatMap_replicate_sum l (fun _ => len) c]
  congr 1
  induction l with
  | nil => simp
  | cons a t ih =>
      rw [List.map_cons, List.sum_cons, ih, List.length_cons]
      ring

theorem two_mul_sum_range_one (m : ℕ) : 2 * (List.range' 1 m).sum = m * (m + 1) := by
  induction m with
  | zero => rfl
  | succ m ih =>
      rw [List.range'_concat 1 m, List.sum_append]
      simp only [List.sum_cons, List.sum_nil]
      have e : 1 + 1 * m = m + 1 := by omega
      rw [e]
      have h3 : (m + 1) * (m + 1 + 1) = m * (m + 1) + 2 * (m + 1) := by ring
      omega

theorem sum_map_sub_aux (n : ℕ) : ∀ m, m ≤ n →
    ((List.range' 1 m).map (fun i => n - i)).sum + (List.range' 1 m).sum = m * n := by
  intro m
  induction m with
  | zero => intro _; simp
  | succ m ih =>
      intro h
      rw [List.range'_concat 1 m, List.map_append, List.sum_append, List.sum_append]
      have e : 1 + 1 * m = m + 1 := by omega
      rw [e]
      have hm := ih (by omega)
      have h2 : (m + 1) * n = m * n + n := by ring
      have h3 : ([m + 1].map (fun i => n - i)).sum = n - (m + 1) := by simp
      have h4 : ([m + 1] : List ℕ).sum = m + 1 := by simp
      rw [h3, h4, h2]
      omega

theorem sum_map_sub (n : ℕ) :
    ((List.range' 1 (n - 1)).map (fun i => n - i)).sum = n * (n - 1) / 2 := by
  have h1 := sum_map_sub_aux n (n - 1) (by omega)
  have h2 := two_mul_sum_range_one (n - 1)
  rcases Nat.eq_zero_or_pos n with hn | hn
  · subst hn
    rfl
  · have e : n - 1 + 1 = n := by omega
    rw [e] at h2
    have hc : (n - 1) * n = n * (n - 1) := Nat.mul_comm _ _
    omega

theorem sum_map_mul_right_nat {α : Type} (l : List α) (g : α → ℕ) (c : ℕ) :
    (l.map (fun a => g a * c)).sum = (l.map g).sum * c := by
  induction l with
  | nil => simp
  | cons a t ih =>
      rw [List.map_cons, List.map_cons, List.sum_cons, List.sum_cons, ih]
      ring

theorem initialVectors_eq_replicate (n len : ℕ) :
    initialVectors n len = List.replicate ((n * (n - 1) / 2) * len) (0 : ℚ) := by
  unfold initialVectors
  have hrow : ∀ i : ℕ,
      (List.range' i (n - i)).flatMap (fun _ => List.replicate len (0 : ℚ))
        = List.replicate ((n - i) * len) (0 : ℚ) := by
    intro i
    rw [flatMap_const_replicate, List.length_range']
  have hcong : (List.range' 1 (n - 1)).flatMap
      (fun i => (List.range' i (n - i)).flatMap (fun _ => List.replicate len (0 : ℚ)))
      = (List.range' 1 (n - 1)).flatMap (fun i => List.replicate ((n - i) * len) (0 : ℚ)) :=
    List.flatMap_congr (fun i _ => hrow i)
  rw [hcong, flatMap_replicate_sum]
  congr 1
  rw [sum_map_mul_right_nat, sum_map_sub]

theorem initFold_est_some (est : BmpShape) :
    ∀ (dirs : List (String × Option BmpShape)) (names : List String),
      ∃ names2, dirs.foldl initFold (some est, names) = (some est, names2) := by
  intro dirs
  induction dirs with
  | nil => intro names; exact ⟨names, rfl⟩
  | cons d t ih =>
      intro names
      rcases d with ⟨nm, osh⟩
      rcases osh with _ | sh
      · exact ih names
      · rw [List.foldl_cons]
        show ∃ names2, (t.foldl initFold
          (if keepsClass est sh then (some est, names ++ [nm]) else (some est, names))) = _
        by_cases hk : keepsClass est sh
        · rw [if_pos hk]
          exact ih (names ++ [nm])
        · rw [if_neg hk]
          exact ih names

theorem initFold_none_empty :
    ∀ dirs : List (String × Option BmpShape),
      (dirs.foldl initFold (none, [])).1 = none → (dirs.foldl initFold (none, [])).2 = [] := by
  intro dirs
  induction dirs with
  | nil => intro _; rfl
  | cons d t ih =>
      rcases d with ⟨nm, osh⟩
      rcases osh with _ | sh
      · intro h
        exact ih h
      · rw [List.foldl_cons]
        show (t.foldl initFold (some sh, [nm])).1 = none → _
        obtain ⟨names2, h2⟩ := initFold_est_some sh t [nm]
        rw [h2]
        intro h
        simp at h


/-- One scalar write of trainVectorWithSample: overwrite the component at
the given position of the vector region, leaving header and class table
untouched (the source seeks back sizeof(double) and fwrites one double). -/
def writeComponentAt (f : StoreFile) (pos : ℕ) (x : ℚ) : StoreFile :=
  ⟨f.magic, f.doubleSize, f.width, f.height, f.bitsPerPixel, f.classNames,
    f.vectorData.set pos x⟩

/-- The first m component writes of one per-vector update: the vector at
offset offsetVectors starts at scalar position offsetVectors * vecLen of
the vector region, and the k-th write lands at position
offsetVectors * vecLen + k. Taking m < vecLen models an update
interrupted mid-vector. -/
def writeVectorPrefix (f : StoreFile) (offsetVectors vecLen : ℕ) (comps : List ℚ)
    (m : ℕ) : StoreFile :=
  (List.range m).foldl
    (fun g k => writeComponentAt g (offsetVectors * vecLen + k) (comps.getD k 0)) f

/-- The whole-file effect of one trainVectorWithSample call on a store
file: read the addressed vector, retrain it against the sample bytes, and
write the first m updated components back in place. -/
def trainVectorOnFile (f : StoreFile) (offsetVectors vecLen : ℕ) (lr nd : ℚ)
    (isPositiveSample : Bool) (bytes : List ℕ) (m : ℕ) : StoreFile :=
  writeVectorPrefix f offsetVectors vecLen
    (trainVectorWithSample lr nd isPositiveSample
      ((f.vectorData.drop (offsetVectors * vecLen)).take vecLen) bytes) m

theorem writeVectorPrefix_succ (f : StoreFile) (off vecLen : ℕ) (comps : List ℚ)
    (m : ℕ) :
    writeVectorPrefix f off vecLen comps (m + 1)
      = writeComponentAt (writeVectorPrefix f off vecLen comps m)
          (off * vecLen + m) (comps.getD m 0) := by
  unfold writeVectorPrefix
  rw [List.range_succ m, List.foldl_append]
  rfl

theorem writeVectorPrefix_header (f : StoreFile) (off vecLen : ℕ) (comps : List ℚ) :
    ∀ m, (writeVectorPrefix f off vecLen comps m).magic = f.magic
      ∧ (writeVectorPrefix f off vecLen comps m).doubleSize = f.doubleSize
      ∧ (writeVectorPrefix f off vecLen comps m).width = f.width
      ∧ (writeVectorPrefix f off vecLen comps m).height = f.height
      ∧ (writeVectorPrefix f off vecLen comps m).bitsPerPixel = f.bitsPerPixel
      ∧ (writeVectorPrefix f off vecLen comps m).classNames = f.classNames := by
  intro m
  induction m with
  | zero => exact ⟨rfl, rfl, rfl, rfl, rfl, rfl⟩
  | succ m ih =>
      rw [writeVectorPrefix_succ]
      exact ih

theorem writeVectorPrefix_outside (f : StoreFile) (off vecLen : ℕ) (comps : List ℚ)
    (j : ℕ) (hj : j < off * vecLen ∨ off * vecLen + vecLen ≤ j) :
    ∀ m, m ≤ vecLen →
      (writeVectorPrefix f off vecLen comps m).vectorData.getD j 0
        = f.vectorData.getD j 0 := by
  intro m
  induction m with
  | zero => intro _; rfl
  | succ m ih =>
      intro hm
      rw [writeVectorPrefix_succ]
      show ((writeVectorPrefix f off vecLen comps m).vectorData.set
        (off * vecLen + m) (comps.getD m 0)).getD j 0 = f.vectorData.getD j 0
      rw [getD_set_ne _ _ _ _ _ (by omega)]
      exact ih (by omega)

theorem learnRateAt_sqrt (t : ℕ) (eta : ℝ) (h : learnRateAt t eta) :
    0 < eta ∧ eta * eta * ((t : ℝ) + 1) = 1 := by
  unfold learnRateAt at h
  subst h
  have hpos : (0 : ℝ) < (t : ℝ) + 1 := by positivity
  have hs : 0 < Real.sqrt ((t : ℝ) + 1) := Real.sqrt_pos.mpr hpos
  refine ⟨div_pos one_pos hs, ?_⟩
  have hmul : Real.sqrt ((t : ℝ) + 1) * Real.sqrt ((t : ℝ) + 1) = (t : ℝ) + 1 :=
    Real.mul_self_sqrt (le_of_lt hpos)
  calc (1 / Real.sqrt ((t : ℝ) + 1)) * (1 / Real.sqrt ((t : ℝ) + 1)) * ((t : ℝ) + 1)
      = ((t : ℝ) + 1) / (Real.sqrt ((t : ℝ) + 1) * Real.sqrt ((t : ℝ) + 1)) := by
        ring
    _ = ((t : ℝ) + 1) / ((t : ℝ) + 1) := by rw [hmul]
    _ = 1 := div_self (ne_of_gt hpos)

theorem normDivisor_zero (sq : ℕ) (nd : ℚ) (hsq : sq = 0) (h : IsNormDivisorOf sq nd) :
    nd = 0 := by
  obtain ⟨h1, h2⟩ := h
  subst hsq
  have h3 : nd * nd = 0 := by
    rw [h2]
    simp
  exact mul_self_eq_zero.mp h3


theorem negList_nodup (n c : ℕ) (hc : c < n) :
    ((List.range c).map (fun k => (pairIndex n k c, false))).Nodup := by
  apply (List.nodup_range c).map_on
  intro x hx y hy hxy
  rw [List.mem_range] at hx hy
  injection hxy with h1 _
  exact (pairIndex_injective n x c y c (by omega) (by omega) (by omega) (by omega) h1).1

theorem posList_nodup (n c : ℕ) (hc : c < n) :
    ((List.range' (c + 1) (n - 1 - c)).map (fun j => (pairIndex n c j, true))).Nodup := by
  apply (List.nodup_range' ..).map_on
  intro x hx y hy hxy
  rw [List.mem_range'_1] at hx hy
  injection hxy with h1 _
  exact (pairIndex_injective n c x c y (by omega) (by omega) (by omega) (by omega) h1).2

theorem mem_negList (n c i j : ℕ) (hc : c < n) (hij : i < j) (hjn : j < n) :
    ((pairIndex n i j, false) ∈ (List.range c).map (fun k => (pairIndex n k c, false)))
      ↔ j = c := by
  rw [List.mem_map]
  constructor
  · rintro ⟨k, hk, he⟩
    rw [List.mem_range] at hk
    injection he with h1 _
    exact ((pairIndex_injective n k c i j (by omega) (by omega) hij hjn h1).2).symm
  · intro h
    subst h
    exact ⟨i, List.mem_range.mpr (by omega), rfl⟩

theorem mem_posList (n c i j : ℕ) (hc : c < n) (hij : i < j) (hjn : j < n) :
    ((pairIndex n i j, true)
        ∈ (List.range' (c + 1) (n - 1 - c)).map (fun j2 => (pairIndex n c j2, true)))
      ↔ i = c := by
  rw [List.mem_map]
  constructor
  · rintro ⟨j2, hj2, he⟩
    rw [List.mem_range'_1] at hj2
    injection he with h1 _
    exact ((pairIndex_injective n c j2 i j (by omega) (by omega) hij hjn h1).1).symm
  · intro h
    subst h
    exact ⟨j, List.mem_range'_1.mpr (by omega), rfl⟩

theorem countP_negList_true (n c : ℕ) (x : ℕ) :
    ((List.range c).map (fun k => (pairIndex n k c, false))).countP
      (fun e => e = (x, true)) = 0 := by
  rw [List.countP_eq_zero]
  intro e he
  rw [List.mem_map] at he
  obtain ⟨k, _, hk⟩ := he
  subst hk
  simp

theorem countP_posList_false (n c : ℕ) (x : ℕ) :
    ((List.range' (c + 1) (n - 1 - c)).map
      (fun j2 => (pairIndex n c j2, true))).countP (fun e => e = (x, false)) = 0 := by
  rw [List.countP_eq_zero]
  intro e he
  rw [List.mem_map] at he
  obtain ⟨k, _, hk⟩ := he
  subst hk
  simp

theorem filter_eq_length_of_nodup {α : Type} [DecidableEq α] (l : List α)
    (hd : l.Nodup) (a : α) :
    (l.filter (fun e => e = a)).length = if a ∈ l then 1 else 0 := by
  induction l with
  | nil => simp
  | cons b t ih =>
      obtain ⟨hb, ht⟩ := List.nodup_cons.mp hd
      rw [List.filter_cons]
      by_cases hba : b = a
      · subst hba
        rw [if_pos (by simp), List.length_cons, ih ht, if_pos (List.mem_cons_self b t)]
        rw [if_neg hb]
      · rw [if_neg (by simp [hba]), ih ht]
        have hmem : a ∈ b :: t ↔ a ∈ t := by
          rw [List.mem_cons]
          constructor
          · intro h
            rcases h with h | h
            · exact absurd h.symm hba
            · exact h
          · exact Or.inr
        rw [if_congr hmem rfl rfl]

theorem countP_mem_nodup_ite {α : Type} [DecidableEq α] (l : List α) (a : α)
    (hd : l.Nodup) (p : Prop) [Decidable p] (hmem : a ∈ l ↔ p) :
    l.countP (fun e => e = a) = if p then 1 else 0 := by
  rw [List.countP_eq_length_filter, filter_eq_length_of_nodup l hd a]
  rw [if_congr hmem rfl rfl]


/-- C3: for every class c of a store with n classes, the offset trace of
one trainVectorsWithSample call hits the vector of every pair (i, j)
containing c exactly once - with role negative (false) when c = j is the
higher index and role positive (true) when c = i is the lower index - and
hits no vector of a pair not containing c. -/
theorem claim3_train_pairs (n c : ℕ) (h2 : 2 ≤ n) (hc : c < n)
    (i j : ℕ) (hij : i < j) (hjn : j < n) :
    ((trainVectorOffsets n c).countP (fun e => e = (pairIndex n i j, false))
        = if j = c then 1 else 0) ∧
    ((trainVectorOffsets n c).countP (fun e => e = (pairIndex n i j, true))
        = if i = c then 1 else 0) ∧
    (∀ e ∈ trainVectorOffsets n c, ∃ i2 j2 : ℕ, i2 < j2 ∧ j2 < n ∧
      (i2 = c ∨ j2 = c) ∧ e.1 = pairIndex n i2 j2 ∧ (e.2 = true ↔ i2 = c)) := by
  rw [trainVectorOffsets_eq n c hc]
  refine ⟨?_, ?_, ?_⟩
  · rw [List.countP_append]
    rw [countP_mem_nodup_ite _ _ (negList_nodup n c hc) (j = c)
      (mem_negList n c i j hc hij hjn)]
    rw [countP_posList_false n c]
    omega
  · rw [List.countP_append]
    rw [countP_mem_nodup_ite _ _ (posList_nodup n c hc) (i = c)
      (mem_posList n c i j hc hij hjn)]
    rw [countP_negList_true n c]
    omega
  · intro e he
    rw [List.mem_append] at he
    rcases he with he | he
    · rw [List.mem_map] at he
      obtain ⟨k, hk, he⟩ := he
      rw [List.mem_range] at hk
      refine ⟨k, c, by omega, hc, Or.inr rfl, ?_, ?_⟩
      · rw [← he]
      · rw [← he]
        constructor
        · intro hf
          simp at hf
        · intro hkc
          omega
    · rw [List.mem_map] at he
      obtain ⟨j2, hj2, he⟩ := he
      rw [List.mem_range'_1] at hj2
      refine ⟨c, j2, by omega, by omega, Or.inl rfl, ?_, ?_⟩
      · rw [← he]
      · rw [← he]
        simp

/-- C3 witness at n = 3, c = 1, pair (0, 1). -/
theorem claim3_train_pairs_witness :
    2 ≤ 3 ∧ 1 < 3 ∧ 0 < 1 ∧ 1 < 3 ∧
    (((trainVectorOffsets 3 1).countP (fun e => e = (pairIndex 3 0 1, false))
        = if 1 = 1 then 1 else 0) ∧
      ((trainVectorOffsets 3 1).countP (fun e => e = (pairIndex 3 0 1, true))
        = if 0 = 1 then 1 else 0) ∧
      (∀ e ∈ trainVectorOffsets 3 1, ∃ i2 j2 : ℕ, i2 < j2 ∧ j2 < 3 ∧
        (i2 = 1 ∨ j2 = 1) ∧ e.1 = pairIndex 3 i2 j2 ∧ (e.2 = true ↔ i2 = 1))) :=
  ⟨by decide, by decide, by decide, by decide,
    claim3_train_pairs 3 1 (by decide) (by decide) 0 1 (by decide) (by decide)⟩

/-- C4: the closed-form pair index is a bijection from the pairs
(i, j), i < j < n, onto 0 .. C(n,2)-1 taken in the canonical enumeration
order (so index(0,1) = 0 and index(n-2,n-1) = C(n,2)-1), and the
incremental offset computation of trainVectorsWithSample reaches exactly
the slots the closed form assigns to the pairs containing classNum, in
order. -/
theorem claim4_index_bijection (n : ℕ) (h2 : 2 ≤ n) :
    ((classPairs n).map (fun pq => pairIndex n pq.1 pq.2)
        = List.range (n * (n - 1) / 2)) ∧
    pairIndex n 0 1 = 0 ∧
    pairIndex n (n - 2) (n - 1) = n * (n - 1) / 2 - 1 ∧
    (∀ c, c < n → trainVectorOffsets n c
      = ((List.range c).map (fun k => (pairIndex n k c, false)))
        ++ ((List.range' (c + 1) (n - 1 - c)).map (fun j => (pairIndex n c j, true)))) := by
  refine ⟨classPairs_map_pairIndex n, by simp [pairIndex], ?_,
    fun c hc => trainVectorOffsets_eq n c hc⟩
  obtain ⟨m, rfl⟩ : ∃ m, n = m + 2 := ⟨n - 2, by omega⟩
  rw [show m + 2 - 2 = m from by omega, show m + 2 - 1 = m + 1 from by omega]
  rw [pairIndex_base (m + 2) m]
  have h1 := two_mul_tri m
  have hdvd : 2 ∣ (m + 1) * (m + 2) := (Nat.even_mul_succ_self (m + 1)).two_dvd
  have hc2 : (m + 2) * (m + 1) = (m + 1) * (m + 2) := by ring
  rw [hc2]
  have h3 : (m + 1) * (m + 2) = m * (m + 1) + 2 * (m + 1) := by ring
  have h4 : m * (m + 2) = m * (m + 1) + m := by ring
  omega

/-- C4 witness at n = 3. -/
theorem claim4_index_bijection_witness :
    2 ≤ 3 ∧
    (((classPairs 3).map (fun pq => pairIndex 3 pq.1 pq.2)
        = List.range (3 * (3 - 1) / 2)) ∧
      pairIndex 3 0 1 = 0 ∧
      pairIndex 3 (3 - 2) (3 - 1) = 3 * (3 - 1) / 2 - 1 ∧
      (∀ c, c < 3 → trainVectorOffsets 3 c
        = ((List.range c).map (fun k => (pairIndex 3 k c, false)))
          ++ ((List.range' (c + 1) (3 - 1 - c)).map (fun j => (pairIndex 3 c j, true))))) :=
  ⟨by decide, claim4_index_bijection 3 (by decide)⟩


/-- C1 counterexample: on a 2-class store whose single vector gives the
query a strictly positive dot product, the pass casts its vote for class
0 (the lower index, posClass) and class 1 (the higher index) receives no
vote - the opposite of the claimed rule that a positive dot product votes
for the higher index j. -/
theorem claim1_counterexample :
    tryGetDotProduct 1 ([[(1 : ℚ)]].getD (pairIndex 2 0 1) []) [1] > 0 ∧
    (vectorsInFavor 2 1 [[(1 : ℚ)]] [1]).getD 1 0 = 0 ∧
    (vectorsInFavor 2 1 [[(1 : ℚ)]] [1]).getD 0 0 = 1 := by
  have hdot : tryGetDotProduct 1 ([[(1 : ℚ)]].getD (pairIndex 2 0 1) []) [1] = 1 := by
    norm_num [tryGetDotProduct, dotProductStream, pairIndex]
  have hpairs : classPairs 2 = [(0, 1)] := by decide
  have hvotes : vectorsInFavor 2 1 [[(1 : ℚ)]] [1] = [1, 0] := by
    unfold vectorsInFavor
    rw [hpairs, List.foldl_cons, List.foldl_nil]
    unfold voteStep
    have hc : tryGetDotProduct 1
        ([[(1 : ℚ)]].getD (pairIndex 2 (0, 1).1 (0, 1).2) []) [1] > 0 := by
      show tryGetDotProduct 1 ([[(1 : ℚ)]].getD (pairIndex 2 0 1) []) [1] > 0
      rw [hdot]
      norm_num
    rw [if_pos hc]
    rfl
  refine ⟨by rw [hdot]; norm_num, by rw [hvotes]; rfl, by rw [hvotes]; rfl⟩

/-- C1 amended: over the canonical pair enumeration, each pair (i, j)
casts exactly one vote, for class i (the lower index, the positive
member of the pair as trained) when the streamed dot product is strictly
positive, and for class j (the higher index) otherwise, dot = 0.0
included; the tally of class k is the number of pairs whose cast vote
chose k. -/
theorem claim1_vote_rule (n : ℕ) (nd : ℚ) (vectors : List (List ℚ)) (bytes : List ℕ)
    (k : ℕ) (hk : k < n) :
    (vectorsInFavor n nd vectors bytes).getD k 0
      = ((classPairs n).filter (fun pq =>
          (if tryGetDotProduct nd (vectors.getD (pairIndex n pq.1 pq.2) []) bytes > 0
            then pq.1 else pq.2) = k)).length := by
  rw [vectorsInFavor_getD n nd vectors bytes k hk]
  rfl

/-- C1 witness at n = 2 on the counterexample store. -/
theorem claim1_vote_rule_witness :
    0 < 2 ∧
    ((vectorsInFavor 2 1 [[(1 : ℚ)]] [1]).getD 0 0
      = ((classPairs 2).filter (fun pq =>
          (if tryGetDotProduct 1 ([[(1 : ℚ)]].getD (pairIndex 2 pq.1 pq.2) []) [1] > 0
            then pq.1 else pq.2) = 0)).length) :=
  ⟨by decide, claim1_vote_rule 2 1 [[(1 : ℚ)]] [1] 0 (by decide)⟩

/-- C2: on any store with at least 2 classes and arbitrary vector
contents, a query whose norm divisor is exactly 0 gets a dot product of
exactly 0 on every pair, classification succeeds, and class n-1 alone
wins with n-1 votes (the tallies are 0, 1, ..., n-1) at 100 percent
confidence. -/
theorem claim2_blank_query (n : ℕ) (nd : ℚ) (vectors : List (List ℚ)) (bytes : List ℕ)
    (width pad numRows : ℕ) (data : List ℕ) (h2 : 2 ≤ n)
    (hsq : sumSquareByteValues width pad numRows data = 0)
    (hnd : IsNormDivisorOf (sumSquareByteValues width pad numRows data) nd) :
    (∀ i j : ℕ, tryGetDotProduct nd (vectors.getD (pairIndex n i j) []) bytes = 0) ∧
    classifyFileFromSvm n nd vectors bytes
      = some (List.range n, (n - 1, [n - 1]), 100) := by
  have h0 : nd = 0 := normDivisor_zero _ nd hsq hnd
  subst h0
  refine ⟨fun i j => by simp [tryGetDotProduct], ?_⟩
  unfold classifyFileFromSvm
  rw [if_neg (by omega), if_neg (lt_irrefl (0 : ℚ))]
  rw [vectorsInFavor_zero n vectors bytes]
  rw [favoriteClasses_range n h2]
  have hconf : confidence ([n - 1] : List ℕ).length (n - 1) n = 100 := by
    unfold confidence
    have hne : ((1 * (n - 1) : ℕ) : ℚ) ≠ 0 := by
      rw [one_mul]
      exact_mod_cast (by omega : (n - 1 : ℕ) ≠ 0)
    show ((1 * (n - 1) : ℕ) : ℚ) / ((1 * (n - 1) : ℕ) : ℚ) * 100 = 100
    rw [div_self hne, one_mul]
  show some (List.range n, (n - 1, [n - 1]),
    confidence ([n - 1] : List ℕ).length (n - 1) n) = _
  rw [hconf]

/-- C2 witness: a 2-class store and a sample with no pixel data, whose
sum of squared bytes is 0. -/
theorem claim2_blank_query_witness :
    2 ≤ 2 ∧ sumSquareByteValues 0 0 0 [] = 0 ∧
    IsNormDivisorOf (sumSquareByteValues 0 0 0 []) 0 ∧
    ((∀ i j : ℕ, tryGetDotProduct 0 (([] : List (List ℚ)).getD (pairIndex 2 i j) []) [] = 0) ∧
      classifyFileFromSvm 2 0 [] [] = some (List.range 2, (2 - 1, [2 - 1]), 100)) :=
  ⟨by decide, by decide, ⟨le_refl 0, by simp [sumSquareByteValues]⟩,
    claim2_blank_query 2 0 [] [] 0 0 0 [] (by decide) (by decide)
      ⟨le_refl 0, by simp [sumSquareByteValues]⟩⟩

/-- C10: on every classification pass over n classes, the per-class vote
tallies sum to C(n,2) (each pair evaluation casts exactly one vote),
every tally is at most n-1, and the winner scan reports a non-empty set
of favourite classes. -/
theorem claim10_vote_invariants (n : ℕ) (nd : ℚ) (vectors : List (List ℚ))
    (bytes : List ℕ) (h2 : 2 ≤ n) :
    (vectorsInFavor n nd vectors bytes).sum = n * (n - 1) / 2 ∧
    (∀ k : ℕ, (vectorsInFavor n nd vectors bytes).getD k 0 ≤ n - 1) ∧
    (favoriteClasses (vectorsInFavor n nd vectors bytes)).2 ≠ [] := by
  refine ⟨?_, ?_, ?_⟩
  · rw [vectorsInFavor_sum, classPairs_length]
  · intro k
    rcases Nat.lt_or_ge k n with hk | hk
    · rw [vectorsInFavor_getD n nd vectors bytes k hk]
      have himp : ∀ pq : ℕ × ℕ,
          (decide (chosenClass nd vectors bytes n pq = k)) = true →
          (decide (pq.1 = k ∨ pq.2 = k)) = true := by
        intro pq h
        rw [decide_eq_true_eq] at h ⊢
        unfold chosenClass at h
        split at h
        · exact Or.inl h
        · exact Or.inr h
      have hmono := length_filter_mono (classPairs n)
        (fun pq => decide (chosenClass nd vectors bytes n pq = k))
        (fun pq => decide (pq.1 = k ∨ pq.2 = k)) himp
      have hlen : ((classPairs n).filter (fun pq => pq.1 = k ∨ pq.2 = k)).length
          = n - 1 := by
        rw [classPairs_filter_contains n k hk]
        rw [List.length_append, List.length_map, List.length_map, List.length_range,
          List.length_range']
        omega
      omega
    · rw [List.getD_eq_default]
      · omega
      · rw [vectorsInFavor_length]
        omega
  · apply favoriteClasses_ne_nil
    rw [vectorsInFavor_length]
    omega

/-- C10 witness at n = 2 on the two-class store of the C1 example. -/
theorem claim10_vote_invariants_witness :
    2 ≤ 2 ∧
    ((vectorsInFavor 2 1 [[(1 : ℚ)]] [1]).sum = 2 * (2 - 1) / 2 ∧
      (∀ k : ℕ, (vectorsInFavor 2 1 [[(1 : ℚ)]] [1]).getD k 0 ≤ 2 - 1) ∧
      (favoriteClasses (vectorsInFavor 2 1 [[(1 : ℚ)]] [1])).2 ≠ []) :=
  ⟨by decide, claim10_vote_invariants 2 1 [[(1 : ℚ)]] [1] (by decide)⟩


/-- C5: for a per-(sample, vector) update with positive norm divisor,
with y = +1 for the positive role and y = -1 for the negative role and
margin = y * dot: when margin < 1 every component becomes
v - lr * (LAMBDA * v - y * b / nd) (redirect), otherwise every component
becomes v - lr * (LAMBDA * v) (shrink); and the learning rate the
training loop passes for 0-based step t, 1 / sqrt(t + 1), is the
positive eta with eta * eta * (t + 1) = 1. -/
theorem claim5_pegasos_update (lr nd : ℚ) (isPositiveSample : Bool) (vec : List ℚ)
    (bytes : List ℕ) (hnd : 0 < nd) :
    ((if isPositiveSample then (1 : ℚ) else -1) * dotProductStream nd vec bytes < 1 →
      trainVectorWithSample lr nd isPositiveSample vec bytes
        = (vec.zip bytes).map (fun p =>
            p.1 - lr * (LAMBDA * p.1
              - (if isPositiveSample then (1 : ℚ) else -1) * ((p.2 : ℚ) / nd)))) ∧
    (1 ≤ (if isPositiveSample then (1 : ℚ) else -1) * dotProductStream nd vec bytes →
      trainVectorWithSample lr nd isPositiveSample vec bytes
        = vec.map (fun v => v - lr * (LAMBDA * v))) ∧
    (∀ (t : ℕ) (eta : ℝ), learnRateAt t eta → 0 < eta ∧ eta * eta * ((t : ℝ) + 1) = 1) := by
  refine ⟨?_, ?_, fun t eta h => learnRateAt_sqrt t eta h⟩
  · intro hm
    cases isPositiveSample with
    | true =>
        rw [if_pos rfl] at hm
        rw [one_mul] at hm
        show (if dotProductStream nd vec bytes < 1 then
            (vec.zip bytes).map (fun p =>
              p.1 - lr * (LAMBDA * p.1 - (p.2 : ℚ) / nd))
          else vec.map (fun v => v - lr * LAMBDA * v)) = _
        rw [if_pos hm]
        apply List.map_congr_left
        intro p _
        rw [if_pos rfl]
        ring
    | false =>
        rw [if_neg (by simp)] at hm
        rw [neg_one_mul] at hm
        show (if -dotProductStream nd vec bytes < 1 then
            (vec.zip bytes).map (fun p =>
              p.1 - lr * (LAMBDA * p.1 - -((p.2 : ℚ) / nd)))
          else vec.map (fun v => v - lr * LAMBDA * v)) = _
        rw [if_pos hm]
        apply List.map_congr_left
        intro p _
        rw [if_neg (by simp)]
        ring
  · intro hm
    cases isPositiveSample with
    | true =>
        rw [if_pos rfl] at hm
        rw [one_mul] at hm
        show (if dotProductStream nd vec bytes < 1 then
            (vec.zip bytes).map (fun p =>
              p.1 - lr * (LAMBDA * p.1 - (p.2 : ℚ) / nd))
          else vec.map (fun v => v - lr * LAMBDA * v)) = _
        rw [if_neg (not_lt.mpr hm)]
        apply List.map_congr_left
        intro v _
        ring
    | false =>
        rw [if_neg (by simp)] at hm
        rw [neg_one_mul] at hm
        show (if -dotProductStream nd vec bytes < 1 then
            (vec.zip bytes).map (fun p =>
              p.1 - lr * (LAMBDA * p.1 - -((p.2 : ℚ) / nd)))
          else vec.map (fun v => v - lr * LAMBDA * v)) = _
        rw [if_neg (not_lt.mpr hm)]
        apply List.map_congr_left
        intro v _
        ring

/-- C5 witness at lr = 1, nd = 1, positive role and empty streams (the
dot product is 0, so the redirect branch applies). -/
theorem claim5_pegasos_update_witness :
    0 < (1 : ℚ) ∧
    (((if true then (1 : ℚ) else -1) * dotProductStream 1 [] [] < 1 →
      trainVectorWithSample 1 1 true [] []
        = (([] : List ℚ).zip ([] : List ℕ)).map (fun p =>
            p.1 - 1 * (LAMBDA * p.1 - (if true then (1 : ℚ) else -1) * ((p.2 : ℚ) / 1)))) ∧
    (1 ≤ (if true then (1 : ℚ) else -1) * dotProductStream 1 [] [] →
      trainVectorWithSample 1 1 true [] []
        = ([] : List ℚ).map (fun v => v - 1 * (LAMBDA * v))) ∧
    (∀ (t : ℕ) (eta : ℝ), learnRateAt t eta → 0 < eta ∧ eta * eta * ((t : ℝ) + 1) = 1)) :=
  ⟨zero_lt_one, claim5_pegasos_update 1 1 true [] [] zero_lt_one⟩

/-- C6 counterexample: a 16-bits-per-pixel sample (2 bytes per pixel,
width 2, one row) whose only nonzero channel byte lies beyond the first
width bytes of the row. getNormDivisor sums squares over only the first
width bytes of each stored row, so it reports 0 while the Euclidean norm
over all width * |height| * bytesPerPixel channel bytes is sqrt 25; no
rational can be the norm divisor of both. -/
theorem claim6_counterexample :
    sumSquareByteValues 2 2 1 [0, 0, 5, 0, 0, 0, 0, 0] = 0 ∧
    specSumSquareChannelBytes 2 2 2 1 [0, 0, 5, 0, 0, 0, 0, 0] = 25 ∧
    ¬ ∃ nd : ℚ,
      IsNormDivisorOf (sumSquareByteValues 2 2 1 [0, 0, 5, 0, 0, 0, 0, 0]) nd ∧
      IsNormDivisorOf (specSumSquareChannelBytes 2 2 2 1 [0, 0, 5, 0, 0, 0, 0, 0]) nd := by
  refine ⟨by decide, by decide, ?_⟩
  rintro ⟨nd, h1, h2⟩
  have e0 : nd = 0 := normDivisor_zero _ nd (by decide) h1
  subst e0
  obtain ⟨_, h22⟩ := h2
  rw [show specSumSquareChannelBytes 2 2 2 1 [0, 0, 5, 0, 0, 0, 0, 0] = 25 from by decide]
    at h22
  norm_num at h22

/-- C6 amended: the norm divisor shared by training and classification
(both call the same getNormDivisor) is the Euclidean norm of the first
width bytes of each of the |height| stored rows - that is, the formula claimed by the spec
 restricted to bytesPerPixel = 1, with which it coincides
for every sample exactly when one byte per pixel is in use. -/
theorem claim6_norm_divisor (width pad numRows : ℕ) (data : List ℕ) :
    sumSquareByteValues width pad numRows data
      = specSumSquareChannelBytes width pad 1 numRows data := by
  unfold sumSquareByteValues specSumSquareChannelBytes
  simp [mul_one]

/-- C7: training with a sample whose norm divisor is exactly 0 (a sample
whose summed squared bytes are 0) returns success and leaves the whole
vector array unchanged - a no-op, not an error. -/
theorem claim7_blank_sample_noop (n c : ℕ) (lr nd : ℚ) (vectors : List (List ℚ))
    (bytes : List ℕ) (width pad numRows : ℕ) (data : List ℕ)
    (hsq : sumSquareByteValues width pad numRows data = 0)
    (hnd : IsNormDivisorOf (sumSquareByteValues width pad numRows data) nd) :
    trainVectorsWithSample n c lr nd vectors bytes = some vectors := by
  have h0 : nd = 0 := normDivisor_zero _ nd hsq hnd
  subst h0
  unfold trainVectorsWithSample
  rw [if_pos (le_refl (0 : ℚ)), if_neg (lt_irrefl (0 : ℚ))]

/-- C7 witness: an empty sample on a 2-class store. -/
theorem claim7_blank_sample_noop_witness :
    sumSquareByteValues 0 0 0 [] = 0 ∧
    IsNormDivisorOf (sumSquareByteValues 0 0 0 []) 0 ∧
    trainVectorsWithSample 2 0 1 0 [[(3 : ℚ)]] [7] = some [[(3 : ℚ)]] :=
  ⟨by decide, ⟨le_refl 0, by simp [sumSquareByteValues]⟩,
    claim7_blank_sample_noop 2 0 1 0 [[(3 : ℚ)]] [7] 0 0 0 [] (by decide)
      ⟨le_refl 0, by simp [sumSquareByteValues]⟩⟩


theorem initializeOutputFile_eq (dirs : List (String × Option BmpShape))
    (est : Option BmpShape) (names : List String)
    (hfold : dirs.foldl initFold (none, []) = (est, names)) :
    initializeOutputFile dirs
      = if names.length < 2 then none
        else
          match est with
          | none => none
          | some sh =>
              some ⟨"NSVM", 8, sh.width, sh.height, sh.bitsPerPixel, names,
                initialVectors names.length (vectorLen sh)⟩ := by
  unfold initializeOutputFile
  rw [hfold]

/-- C8 counterexample: three class directories are supplied, the third
declaring a different width than the first-established shape; the claim
says creation must fail with a format error, but initializeOutputFile
skips the mismatched class with continue and succeeds, producing a
2-class store (classes "a", "b") with one zero vector. -/
theorem claim8_counterexample :
    initializeOutputFile
        [("a", some ⟨1, 1, 8⟩), ("b", some ⟨1, 1, 8⟩), ("c", some ⟨2, 1, 8⟩)]
      = some ⟨"NSVM", 8, 1, 1, 8, ["a", "b"], [0]⟩ := by
  rfl

/-- C8 amended: creation fails exactly when fewer than 2 class
directories survive validation - a directory with an unreadable or
internally inconsistent population, a shape disagreeing with the
first-established one, or a non-byte-aligned bitsPerPixel is silently
skipped, not an error - and on success the file consists of the fixed
header carrying the established shape, the class table holding the
surviving classes in supplied order, and exactly C(n,2) vectors of
numPixels * bytesPerPixel components, all 0.0. -/
theorem claim8_initializer (dirs : List (String × Option BmpShape)) :
    (initializeOutputFile dirs = none
        ↔ (dirs.foldl initFold (none, [])).2.length < 2) ∧
    (∀ f, initializeOutputFile dirs = some f →
      f.magic = "NSVM" ∧ f.doubleSize = 8 ∧
      f.classNames = (dirs.foldl initFold (none, [])).2 ∧
      (dirs.foldl initFold (none, [])).1 = some ⟨f.width, f.height, f.bitsPerPixel⟩ ∧
      f.vectorData = List.replicate
        ((f.classNames.length * (f.classNames.length - 1) / 2)
          * vectorLen ⟨f.width, f.height, f.bitsPerPixel⟩) (0 : ℚ)) := by
  rcases hfold : dirs.foldl initFold (none, []) with ⟨est, names⟩
  have heq := initializeOutputFile_eq dirs est names hfold
  by_cases hlen : names.length < 2
  · rw [if_pos hlen] at heq
    constructor
    · rw [heq]
      constructor
      · intro _
        exact hlen
      · intro _
        rfl
    · intro f hf
      rw [heq] at hf
      exact absurd hf (by simp)
  · rw [if_neg hlen] at heq
    rcases est with _ | sh
    · have hnil : names = [] := by
        have h1 := initFold_none_empty dirs
        rw [hfold] at h1
        exact h1 rfl
      rw [hnil] at hlen
      exact absurd (by simp : ([] : List String).length < 2) hlen
    · constructor
      · rw [heq]
        constructor
        · intro h
          exact absurd h (by simp)
        · intro h
          exact absurd h hlen
      · intro f hf
        rw [heq] at hf
        injection hf with hf2
        subst hf2
        refine ⟨rfl, rfl, rfl, rfl, ?_⟩
        exact initialVectors_eq_replicate names.length (vectorLen sh)

/-- C8 witness: the amended characterization instantiated on the
counterexample directory list. -/
theorem claim8_initializer_witness :
    (initializeOutputFile
        [("a", some ⟨1, 1, 8⟩), ("b", some ⟨1, 1, 8⟩), ("c", some ⟨2, 1, 8⟩)] = none
      ↔ ([("a", some (⟨1, 1, 8⟩ : BmpShape)), ("b", some ⟨1, 1, 8⟩),
          ("c", some ⟨2, 1, 8⟩)].foldl initFold (none, [])).2.length < 2) ∧
    (∀ f, initializeOutputFile
        [("a", some ⟨1, 1, 8⟩), ("b", some ⟨1, 1, 8⟩), ("c", some ⟨2, 1, 8⟩)] = some f →
      f.magic = "NSVM" ∧ f.doubleSize = 8 ∧
      f.classNames = ([("a", some (⟨1, 1, 8⟩ : BmpShape)), ("b", some ⟨1, 1, 8⟩),
          ("c", some ⟨2, 1, 8⟩)].foldl initFold (none, [])).2 ∧
      ([("a", some (⟨1, 1, 8⟩ : BmpShape)), ("b", some ⟨1, 1, 8⟩),
          ("c", some ⟨2, 1, 8⟩)].foldl initFold (none, [])).1
        = some ⟨f.width, f.height, f.bitsPerPixel⟩ ∧
      f.vectorData = List.replicate
        ((f.classNames.length * (f.classNames.length - 1) / 2)
          * vectorLen ⟨f.width, f.height, f.bitsPerPixel⟩) (0 : ℚ)) :=
  claim8_initializer [("a", some ⟨1, 1, 8⟩), ("b", some ⟨1, 1, 8⟩), ("c", some ⟨2, 1, 8⟩)]

/-- C9: the first m component writes of a per-vector training update (any
m up to the vector length, so partially completed updates included) land
inside the scalar range of the one addressed vector - position
offsetVectors * vecLen up to but excluding offsetVectors * vecLen +
vecLen of the vector region - and the header fields and the class table
are left unchanged. -/
theorem claim9_update_frame (f : StoreFile) (offsetVectors vecLen : ℕ) (lr nd : ℚ)
    (isPositiveSample : Bool) (bytes : List ℕ) (m : ℕ) (hm : m ≤ vecLen) :
    (∀ j, (j < offsetVectors * vecLen ∨ offsetVectors * vecLen + vecLen ≤ j) →
      (trainVectorOnFile f offsetVectors vecLen lr nd isPositiveSample bytes
          m).vectorData.getD j 0
        = f.vectorData.getD j 0) ∧
    (trainVectorOnFile f offsetVectors vecLen lr nd isPositiveSample bytes m).magic
        = f.magic
      ∧ (trainVectorOnFile f offsetVectors vecLen lr nd isPositiveSample bytes
          m).doubleSize = f.doubleSize
      ∧ (trainVectorOnFile f offsetVectors vecLen lr nd isPositiveSample bytes
          m).width = f.width
      ∧ (trainVectorOnFile f offsetVectors vecLen lr nd isPositiveSample bytes
          m).height = f.height
      ∧ (trainVectorOnFile f offsetVectors vecLen lr nd isPositiveSample bytes
          m).bitsPerPixel = f.bitsPerPixel
      ∧ (trainVectorOnFile f offsetVectors vecLen lr nd isPositiveSample bytes
          m).classNames = f.classNames := by
  unfold trainVectorOnFile
  refine ⟨fun j hj => writeVectorPrefix_outside f offsetVectors vecLen _ j hj m hm, ?_⟩
  exact writeVectorPrefix_header f offsetVectors vecLen _ m

/-- C9 witness: a 2-component vector region, updating the vector at
offset 1 with a single-component vector length. -/
theorem claim9_update_frame_witness :
    1 ≤ 1 ∧
    ((∀ j, (j < 1 * 1 ∨ 1 * 1 + 1 ≤ j) →
      (trainVectorOnFile ⟨"NSVM", 8, 1, 1, 8, ["a"], [(1 : ℚ), 2]⟩ 1 1 1 1 true [1]
          1).vectorData.getD j 0
        = (⟨"NSVM", 8, 1, 1, 8, ["a"], [(1 : ℚ), 2]⟩ : StoreFile).vectorData.getD j 0) ∧
    (trainVectorOnFile ⟨"NSVM", 8, 1, 1, 8, ["a"], [(1 : ℚ), 2]⟩ 1 1 1 1 true [1]
        1).magic = (⟨"NSVM", 8, 1, 1, 8, ["a"], [(1 : ℚ), 2]⟩ : StoreFile).magic
      ∧ (trainVectorOnFile ⟨"NSVM", 8, 1, 1, 8, ["a"], [(1 : ℚ), 2]⟩ 1 1 1 1 true [1]
          1).doubleSize = (⟨"NSVM", 8, 1, 1, 8, ["a"], [(1 : ℚ), 2]⟩ : StoreFile).doubleSize
      ∧ (trainVectorOnFile ⟨"NSVM", 8, 1, 1, 8, ["a"], [(1 : ℚ), 2]⟩ 1 1 1 1 true [1]
          1).width = (⟨"NSVM", 8, 1, 1, 8, ["a"], [(1 : ℚ), 2]⟩ : StoreFile).width
      ∧ (trainVectorOnFile ⟨"NSVM", 8, 1, 1, 8, ["a"], [(1 : ℚ), 2]⟩ 1 1 1 1 true [1]
          1).height = (⟨"NSVM", 8, 1, 1, 8, ["a"], [(1 : ℚ), 2]⟩ : StoreFile).height
      ∧ (trainVectorOnFile ⟨"NSVM", 8, 1, 1, 8, ["a"], [(1 : ℚ), 2]⟩ 1 1 1 1 true [1]
          1).bitsPerPixel = (⟨"NSVM", 8, 1, 1, 8, ["a"], [(1 : ℚ), 2]⟩ : StoreFile).bitsPerPixel
      ∧ (trainVectorOnFile ⟨"NSVM", 8, 1, 1, 8, ["a"], [(1 : ℚ), 2]⟩ 1 1 1 1 true [1]
          1).classNames = (⟨"NSVM", 8, 1, 1, 8, ["a"], [(1 : ℚ), 2]⟩ : StoreFile).classNames) :=
  ⟨by decide, claim9_update_frame ⟨"NSVM", 8, 1, 1, 8, ["a"], [(1 : ℚ), 2]⟩ 1 1 1 1 true [1]
    1 (by decide)⟩

end NSvm
